import Mathlib

/-!
Verification of the Result Resolution Engine of the OpenF1 console tool: the
`ResultsService.finishing_order` pipeline of `f1.py` (duplicated verbatim in
`f1_comments.py`), together with the roster preparation of
`DriversService.list_by_session`.

The embedding models one session's data flow.  A positions fetch is a list of
records together with a schema flag for each column whose presence varies by
session (`date`, `lap_number`, `gap`, `interval`); the roster fetch is a list
of driver records.  Dates and lap numbers are abstracted to naturals (the real
feed carries ISO timestamps whose lexicographic order is their chronological
order), positions to integers, and raw gap values to strings.

Pandas semantics captured by the model (each recorded at the definition that
uses it):
* `sort_values` orders rows by the named column with nulls placed last
  (`na_position='last'`).  Its default `kind='quicksort'` does not guarantee a
  stable order among equal keys; the model uses a stable insertion sort, which
  agrees with the source wherever the ordering keys are distinct and on
  arrays shorter than 17 elements (numpy's introsort runs a stable insertion
  sort below that size).  Theorems that depend on tie order are confined to
  two-element groups.
* `groupby(k, as_index=False).last()` sorts the distinct group keys ascending
  and, for each group, takes the last NON-NULL entry of each column
  independently (it does not keep the last row as a unit).
* `merge(on=k, how='left')` keeps every left row in order, copying the
  matching right row's columns and filling nulls when there is no match; it
  raises `KeyError` when the right frame lacks column `k`, which happens
  exactly when the drivers fetch returned nothing (an empty fetch produces a
  DataFrame with no columns at all).
* an empty positions fetch likewise has no columns, so the early
  `if pos.empty: return pos` returns a zero-column empty frame.
-/

namespace OpenF1

/-! ## Stable sorting by a boolean comparison

`sortLe` is the model of `DataFrame.sort_values`: a stable insertion sort by a
total boolean comparison. -/

/-- Insert `a` into `l`, placing it before the first element `b` with
`le a b`; for equal keys the inserted (arrival-earlier) element therefore ends
up first, making the sort stable. -/
def insertLe (le : α → α → Bool) (a : α) : List α → List α
  | [] => [a]
  | b :: l => if le a b then a :: b :: l else b :: insertLe le a l

/-- Stable insertion sort by a boolean comparison. -/
def sortLe (le : α → α → Bool) : List α → List α
  | [] => []
  | a :: l => insertLe le a (sortLe le l)

/-! ## Comparison keys

`ole` compares nullable column values the way `sort_values` does with its
default `na_position='last'`: null sorts after every non-null value. -/

/-- Comparison on a nullable column: nulls are placed last
(`na_position='last'`). -/
def ole {κ : Type} [LinearOrder κ] : Option κ → Option κ → Bool
  | some a, some b => a ≤ b
  | some _, none => true
  | none, some _ => false
  | none, none => true

/-- Comparison of naturals as a boolean, for sorting group keys. -/
def natLe (a b : ℕ) : Bool := a ≤ b

/-! ## Data model

One raw position record (`f1.py` fetches `/position` for the session).  Every
record carries `driver_number` (the spec's precondition in §7: an identifying
`driver_number` is always present) and a nullable `position`.  The remaining
fields are the session-dependent columns; each is only meaningful when the
corresponding `PosSchema` flag says the column is present in the feed. -/

/-- Which optional columns the raw position feed of this session carries.
`f1.py` inspects exactly these four via `in pos.columns` / `in df.columns`. -/
structure PosSchema where
  hasDate : Bool
  hasLap : Bool
  hasGap : Bool
  hasInterval : Bool
deriving DecidableEq

/-- One raw position record.  `date` and `lap_number` are chronological keys
(naturals abstract the feed's ISO timestamps / lap counters); `gap` and
`interval` hold the raw gap-to-leader value as reported. -/
structure PosRow where
  driver_number : ℕ
  position : Option ℤ
  date : Option ℕ
  lap_number : Option ℕ
  gap : Option String
  interval : Option String
deriving DecidableEq

/-- The positions fetch: the rows plus the session's column schema. -/
structure PosInput where
  schema : PosSchema
  rows : List PosRow
deriving DecidableEq

/-- One record of the drivers fetch, already restricted to the three columns
`DriversService.list_by_session` projects. -/
structure DriverRecord where
  driver_number : ℕ
  full_name : String
  team_name : String
deriving DecidableEq

/-- Which column `finishing_order` designates as the gap column. -/
inductive GapCol
  | gap
  | interval
deriving DecidableEq

/-- The value of `gap_to_leader` in an output row: one of the two literal
labels, or the raw gap value passed through unmodified. -/
inductive GapOut
  | leader
  | na
  | raw (v : String)
deriving DecidableEq

/-- One row of the final classification: the five projected columns of
`f1.py` lines 136-144.  `position` keeps the nullable type it has in the
merged frame (it is in fact always non-null there). -/
structure ClassRow where
  position : Option ℤ
  driver_number : ℕ
  full_name : Option String
  team_name : Option String
  gap_to_leader : GapOut
deriving DecidableEq

/-- What `finishing_order` hands back: either the early
`if pos.empty: return pos` (the raw empty frame, which has no columns, since
an empty fetch yields `pd.DataFrame()`), or the assembled five-column
classification table. -/
inductive FinOut
  | rawEmpty
  | table (rows : List ClassRow)
deriving DecidableEq

/-- The column names of a returned frame: the raw empty frame has none, the
assembled table has exactly the five projected ones. -/
def FinOut.columns : FinOut → List String
  | .rawEmpty => []
  | .table _ => ["position", "driver_number", "full_name", "team_name", "gap_to_leader"]

/-- The number of rows of a returned frame. -/
def FinOut.numRows : FinOut → ℕ
  | .rawEmpty => 0
  | .table rows => rows.length

/-! ## The pipeline of `ResultsService.finishing_order` (`f1.py` 97-144) -/

/-- Row comparison used by `pos.sort_values("date")`. -/
def dateLe (a b : PosRow) : Bool := ole a.date b.date

/-- Row comparison used by `pos.sort_values("lap_number")`. -/
def lapLe (a b : PosRow) : Bool := ole a.lap_number b.lap_number

/-- Row comparison used by `pos.sort_values("position")`. -/
def posLe (a b : PosRow) : Bool := ole a.position b.position

/-- Record comparison used by `.sort_values("driver_number")` in
`DriversService.list_by_session`. -/
def drvLe (a b : DriverRecord) : Bool := natLe a.driver_number b.driver_number

/-- Line 104, `pos = pos[pos["position"].notna()]`: discard events whose
`position` is null. -/
def filteredRows (p : PosInput) : List PosRow :=
  p.rows.filter fun r => r.position.isSome

/-- Lines 104-110: null filtering followed by the chronological sort — by
`date` if that column is present, else by `lap_number`, else no reordering. -/
def orderEvents (p : PosInput) : List PosRow :=
  if p.schema.hasDate then sortLe dateLe (filteredRows p)
  else if p.schema.hasLap then sortLe lapLe (filteredRows p)
  else filteredRows p

/-- The rows of one `groupby("driver_number")` group, in the frame's current
order. -/
def groupRows (k : ℕ) (rows : List PosRow) : List PosRow :=
  rows.filter fun r => r.driver_number == k

/-- The last non-null entry of one column within a group: the per-column
semantics of pandas `GroupBy.last()`. -/
def lastSome (f : PosRow → Option β) (g : List PosRow) : Option β :=
  (g.filterMap f).getLast?

/-- The output row of `GroupBy.last()` for the group of driver `k`: each
column independently takes its last non-null value within the group (pandas
`last` skips nulls column-wise; it does not return the last row as a unit). -/
def groupLast (k : ℕ) (g : List PosRow) : PosRow :=
  { driver_number := k
    position := lastSome (fun r => r.position) g
    date := lastSome (fun r => r.date) g
    lap_number := lastSome (fun r => r.lap_number) g
    gap := lastSome (fun r => r.gap) g
    interval := lastSome (fun r => r.interval) g }

/-- The distinct group keys, ascending: `groupby` with its default
`sort=True` emits one row per distinct `driver_number`, ordered by key. -/
def groupKeys (rows : List PosRow) : List ℕ :=
  sortLe natLe (rows.map fun r => r.driver_number).dedup

/-- Line 113, `pos.groupby("driver_number", as_index=False).last()` applied
to the chronologically ordered events. -/
def groupByLast (rows : List PosRow) : List PosRow :=
  (groupKeys rows).map fun k => groupLast k (groupRows k rows)

/-- The Position Reducer (`f1.py` 104-113): filter, chronological sort,
group-wise `last`. -/
def reducePositions (p : PosInput) : List PosRow :=
  groupByLast (orderEvents p)

/-- Line 114, `pos.sort_values("position")`. -/
def orderedByPosition (p : PosInput) : List PosRow :=
  sortLe posLe (reducePositions p)

/-- `DriversService.list_by_session` (`f1.py` 40-48): an empty fetch is
returned as is (a frame with no columns); otherwise the three identity
columns are kept, duplicates dropped, and the records sorted by
`driver_number`.  (Pandas `drop_duplicates` keeps first occurrences while
`List.dedup` keeps last ones; the two can only disagree about the relative
order of records that share a `driver_number`, which the subsequent
quicksort leaves unspecified anyway.) -/
def list_by_session (drvRaw : List DriverRecord) : List DriverRecord :=
  if drvRaw.isEmpty then drvRaw
  else sortLe drvLe drvRaw.dedup

/-- One row of the merged frame: the reduced position row plus the roster
identity columns, null when the left join found no roster match. -/
structure MergedRow where
  p : PosRow
  full_name : Option String
  team_name : Option String
deriving DecidableEq

/-- The rows a single left row contributes to a left merge: one per matching
roster record, or a single null-filled row when nothing matches. -/
def mergeBlock (r : PosRow) (drv : List DriverRecord) : List MergedRow :=
  match drv.filter (fun d => d.driver_number == r.driver_number) with
  | [] => [{ p := r, full_name := none, team_name := none }]
  | ms => ms.map fun d => { p := r, full_name := some d.full_name, team_name := some d.team_name }

/-- Line 117, `pos.merge(drv, on="driver_number", how="left")`: every left
row is kept in order; each roster record with a matching key contributes one
output row (in roster order); an unmatched left row is kept once with null
identity columns. -/
def mergeLeft (ps : List PosRow) (drv : List DriverRecord) : List MergedRow :=
  ps.flatMap fun r => mergeBlock r drv

/-- Lines 120-125: designate the gap column — `gap` if that column exists,
else `interval` if it exists, else none.  (The merge only adds the roster's
identity columns, so testing the merged frame's columns is testing the raw
feed's.) -/
def chooseGapCol (s : PosSchema) : Option GapCol :=
  if s.hasGap then some GapCol.gap
  else if s.hasInterval then some GapCol.interval
  else none

/-- Read the designated gap column of a row. -/
def gapField : GapCol → PosRow → Option String
  | GapCol.gap, r => r.gap
  | GapCol.interval, r => r.interval

/-- Lines 127-132, `format_gap`: `"Leader"` for the rank-1 row; `"N/A"` when
no gap column was designated or the designated column is null in this row;
otherwise the raw value unmodified. -/
def format_gap (gc : Option GapCol) (m : MergedRow) : GapOut :=
  if m.p.position == some 1 then GapOut.leader
  else
    match gc with
    | none => GapOut.na
    | some c =>
      match gapField c m.p with
      | none => GapOut.na
      | some v => GapOut.raw v

/-- Lines 134-144: annotate each merged row with `gap_to_leader` and project
to the five output columns. -/
def projectRow (gc : Option GapCol) (m : MergedRow) : ClassRow :=
  { position := m.p.position
    driver_number := m.p.driver_number
    full_name := m.full_name
    team_name := m.team_name
    gap_to_leader := format_gap gc m }

/-- The whole assembly for a non-empty positions fetch and a roster whose
fetch succeeded: reduce, order by position, left-join, format, project. -/
def assembleRows (p : PosInput) (drvRaw : List DriverRecord) : List ClassRow :=
  (mergeLeft (orderedByPosition p) (list_by_session drvRaw)).map
    (projectRow (chooseGapCol p.schema))

/-- `ResultsService.finishing_order` (`f1.py` 97-144).  An empty positions
fetch is returned as is (line 101-102).  When the drivers fetch returned
nothing, `list_by_session` hands back a frame with no columns and line 117's
`merge(on="driver_number")` raises `KeyError` because the right frame lacks
the join column; otherwise the assembled table is returned. -/
def finishing_order (p : PosInput) (drvRaw : List DriverRecord) : Except String FinOut :=
  let drv := list_by_session drvRaw
  if p.rows.isEmpty then Except.ok FinOut.rawEmpty
  else if drv.isEmpty then Except.error "KeyError: driver_number"
  else Except.ok (FinOut.table (assembleRows p drvRaw))

/-! ## The duplicate implementation in `f1_comments.py`

`f1_comments.py` repeats `f1.py` line for line, adding only comments and
docstrings; its `ResultsService.finishing_order` (lines 138-190) and
`DriversService.list_by_session` (lines 48-60) are transcribed here
independently, as one inlined definition over the same pandas-level
primitives (`sortLe`, `List.dedup`, `groupLast`, `mergeLeft`), so that the
two embeddings can be compared. -/

/-- The nested `format_gap` of `f1_comments.py` lines 170-178. -/
def format_gap_c (gc : Option GapCol) (m : MergedRow) : GapOut :=
  if m.p.position == some 1 then GapOut.leader
  else
    match gc with
    | none => GapOut.na
    | some c =>
      match gapField c m.p with
      | none => GapOut.na
      | some v => GapOut.raw v

/-- `ResultsService.finishing_order` of `f1_comments.py` lines 138-190, with
its `DriversService.list_by_session` and all pipeline steps inlined. -/
def finishing_order_c (p : PosInput) (drvRaw : List DriverRecord) : Except String FinOut :=
  let drv := if drvRaw.isEmpty then drvRaw else sortLe drvLe drvRaw.dedup
  if p.rows.isEmpty then Except.ok FinOut.rawEmpty
  else if drv.isEmpty then Except.error "KeyError: driver_number"
  else
    let fil := p.rows.filter fun r => r.position.isSome
    let sorted :=
      if p.schema.hasDate then sortLe dateLe fil
      else if p.schema.hasLap then sortLe lapLe fil
      else fil
    let reduced :=
      (sortLe natLe (sorted.map fun r => r.driver_number).dedup).map
        fun k => groupLast k (sorted.filter fun r => r.driver_number == k)
    let ordered := sortLe posLe reduced
    let gc :=
      if p.schema.hasGap then some GapCol.gap
      else if p.schema.hasInterval then some GapCol.interval
      else none
    Except.ok (FinOut.table ((mergeLeft ordered drv).map fun m =>
      { position := m.p.position
        driver_number := m.p.driver_number
        full_name := m.full_name
        team_name := m.team_name
        gap_to_leader := format_gap_c gc m }))

/-! ## Specification-side definitions

Two definitions follow the specification's wording rather than the source,
for comparison with the code-side definitions above. -/

/-- The Gap Formatting Rule as §4.2 words it: `"Leader"` for rank 1; `"N/A"`
when the session has neither a `gap` nor an `interval` column; `"N/A"` when
the designated column (`gap` taking priority when both exist) is null for
the row; otherwise the raw value unmodified. -/
def specGapRule (s : PosSchema) (m : MergedRow) : GapOut :=
  if m.p.position == some 1 then GapOut.leader
  else if !s.hasGap && !s.hasInterval then GapOut.na
  else
    match gapField (if s.hasGap then GapCol.gap else GapCol.interval) m.p with
    | none => GapOut.na
    | some v => GapOut.raw v

/-- The Position Reducer as §4.1 words it: after filtering and ordering,
each driver keeps "only the last element", i.e. the temporally latest whole
event. -/
def lastWholeEvent (p : PosInput) : List PosRow :=
  (groupKeys (orderEvents p)).filterMap fun k => (groupRows k (orderEvents p)).getLast?

/-! ## Concrete sessions used by counterexamples and witnesses -/

/-- Schema of a session that reports `date` and `gap`. -/
def sDG : PosSchema := ⟨true, false, true, false⟩

/-- Schema of a session that reports `lap_number` and `interval`. -/
def sLI : PosSchema := ⟨false, true, false, true⟩

/-- Schema of a session whose feed carries none of the optional columns. -/
def sBare : PosSchema := ⟨false, false, false, false⟩

/-- A single valid rank-1 event for driver 1. -/
def rowLead : PosRow := ⟨1, some 1, some 2, none, none, none⟩

/-- An earlier rank-3 event for driver 1. -/
def rowEarly : PosRow := ⟨1, some 3, some 1, none, none, none⟩

/-- A lone rank-2 event for driver 1 (a session whose feed never reports a
rank-1 row). -/
def rowSecond : PosRow := ⟨1, some 2, some 1, none, none, none⟩

/-- An event with a null position, for driver 3. -/
def rowNull : PosRow := ⟨3, none, none, none, none, none⟩

/-- Driver 7, earlier event: rank 3 at date 1 with a reported gap. -/
def rowA7 : PosRow := ⟨7, some 3, some 1, none, some "+1.0", none⟩

/-- Driver 7, later event: rank 1 at date 2 with a null gap. -/
def rowB7 : PosRow := ⟨7, some 1, some 2, none, none, none⟩

/-- Driver 5, first-arriving event: rank 2 at date 1 with a reported gap. -/
def rowA5 : PosRow := ⟨5, some 2, some 1, none, some "+1.0", none⟩

/-- Driver 5, later-arriving event at the same date: rank 1, null gap. -/
def rowB5 : PosRow := ⟨5, some 1, some 1, none, none, none⟩

/-- A roster record for driver 1. -/
def drvA : DriverRecord := ⟨1, "A", "TeamA"⟩

/-- Driver 1, earlier event with every optional field reported. -/
def rowF1 : PosRow := ⟨1, some 2, some 1, some 3, some "+0.5", some "+0.6"⟩

/-- Driver 1, later event with every optional field reported. -/
def rowF2 : PosRow := ⟨1, some 1, some 2, some 4, some "+0.0", some "+0.1"⟩

/-- Driver 5, first-arriving event of a same-date pair, fully reported. -/
def rowG5a : PosRow := ⟨5, some 2, some 1, some 3, some "+1.0", some "+1.1"⟩

/-- Driver 5, later-arriving event at the same date, fully reported. -/
def rowG5b : PosRow := ⟨5, some 1, some 1, some 4, some "+0.2", some "+0.3"⟩

/-! ## Basic facts about the pipeline stages -/

theorem mem_insertLe {le : α → α → Bool} {a x : α} {l : List α} :
    x ∈ insertLe le a l ↔ x = a ∨ x ∈ l := by
  induction l with
  | nil => simp [insertLe]
  | cons b l ih =>
    simp only [insertLe]
    by_cases h : le a b = true
    · rw [if_pos h]
      simp
    · rw [if_neg h]
      simp only [List.mem_cons, ih]
      tauto

theorem perm_insertLe (le : α → α → Bool) (a : α) (l : List α) :
    List.Perm (insertLe le a l) (a :: l) := by
  induction l with
  | nil => simp [insertLe]
  | cons b l ih =>
    simp only [insertLe]
    by_cases h : le a b = true
    · rw [if_pos h]
    · rw [if_neg h]
      exact (ih.cons b).trans (List.Perm.swap a b l)

theorem perm_sortLe (le : α → α → Bool) (l : List α) : List.Perm (sortLe le l) l := by
  induction l with
  | nil => simp [sortLe]
  | cons a l ih =>
    exact (perm_insertLe le a (sortLe le l)).trans (ih.cons a)

theorem mem_sortLe {le : α → α → Bool} {x : α} {l : List α} :
    x ∈ sortLe le l ↔ x ∈ l :=
  (perm_sortLe le l).mem_iff

theorem length_sortLe (le : α → α → Bool) (l : List α) :
    (sortLe le l).length = l.length :=
  (perm_sortLe le l).length_eq

theorem pairwise_insertLe {le : α → α → Bool}
    (htot : ∀ a b, le a b = true ∨ le b a = true)
    (htr : ∀ a b c, le a b = true → le b c = true → le a c = true)
    {a : α} {l : List α} (hl : l.Pairwise (fun x y => le x y = true)) :
    (insertLe le a l).Pairwise (fun x y => le x y = true) := by
  induction l with
  | nil => simp [insertLe]
  | cons b l ih =>
    rcases List.pairwise_cons.mp hl with ⟨hb, hl'⟩
    simp only [insertLe]
    by_cases h : le a b = true
    · rw [if_pos h]
      refine List.pairwise_cons.mpr ⟨?_, hl⟩
      intro x hx
      rcases List.mem_cons.mp hx with rfl | hx
      · exact h
      · exact htr a b x h (hb x hx)
    · rw [if_neg h]
      refine List.pairwise_cons.mpr ⟨?_, ih hl'⟩
      intro x hx
      rcases mem_insertLe.mp hx with rfl | hx
      · rcases htot x b with h' | h'
        · exact absurd h' h
        · exact h'
      · exact hb x hx

theorem pairwise_sortLe {le : α → α → Bool}
    (htot : ∀ a b, le a b = true ∨ le b a = true)
    (htr : ∀ a b c, le a b = true → le b c = true → le a c = true)
    (l : List α) :
    (sortLe le l).Pairwise (fun x y => le x y = true) := by
  induction l with
  | nil => simp [sortLe]
  | cons a l ih => exact pairwise_insertLe htot htr ih

theorem ole_total {κ : Type} [LinearOrder κ] (a b : Option κ) :
    ole a b = true ∨ ole b a = true := by
  cases a <;> cases b <;> simp [ole]
  exact le_total _ _

theorem ole_trans {κ : Type} [LinearOrder κ] (a b c : Option κ)
    (h1 : ole a b = true) (h2 : ole b c = true) : ole a c = true := by
  cases a <;> cases b <;> cases c <;> simp_all [ole]
  exact le_trans h1 h2

theorem ole_refl {κ : Type} [LinearOrder κ] (a : Option κ) : ole a a = true := by
  cases a <;> simp [ole]

theorem natLe_total (a b : ℕ) : natLe a b = true ∨ natLe b a = true := by
  simp [natLe]
  exact Nat.le_total a b

theorem natLe_trans (a b c : ℕ) (h1 : natLe a b = true) (h2 : natLe b c = true) :
    natLe a c = true := by
  simp_all [natLe]
  exact le_trans h1 h2


theorem mem_filteredRows {p : PosInput} {r : PosRow} :
    r ∈ filteredRows p ↔ r ∈ p.rows ∧ r.position.isSome := by
  simp [filteredRows, List.mem_filter]

theorem perm_orderEvents (p : PosInput) :
    List.Perm (orderEvents p) (filteredRows p) := by
  rw [orderEvents]
  split
  · exact perm_sortLe _ _
  · split
    · exact perm_sortLe _ _
    · exact List.Perm.refl _

theorem mem_orderEvents {p : PosInput} {r : PosRow} :
    r ∈ orderEvents p ↔ r ∈ filteredRows p :=
  (perm_orderEvents p).mem_iff

theorem isSome_of_mem_orderEvents {p : PosInput} {r : PosRow}
    (h : r ∈ orderEvents p) : r.position.isSome =  true :=
  (mem_filteredRows.mp (mem_orderEvents.mp h)).2

theorem mem_groupKeys {k : ℕ} {rows : List PosRow} :
    k ∈ groupKeys rows ↔ k ∈ rows.map (fun r => r.driver_number) := by
  rw [groupKeys, mem_sortLe]
  exact List.mem_dedup

theorem nodup_groupKeys (rows : List PosRow) : (groupKeys rows).Nodup :=
  ((perm_sortLe _ _).nodup_iff).mpr (List.nodup_dedup _)

theorem mem_groupRows {k : ℕ} {rows : List PosRow} {r : PosRow} :
    r ∈ groupRows k rows ↔ r ∈ rows ∧ r.driver_number = k := by
  simp [groupRows, List.mem_filter]

theorem groupRows_ne_nil {k : ℕ} {rows : List PosRow}
    (h : k ∈ groupKeys rows) : groupRows k rows ≠ [] := by
  obtain ⟨r, hr, hd⟩ := List.mem_map.mp (mem_groupKeys.mp h)
  intro hnil
  exact absurd (mem_groupRows.mpr ⟨hr, hd⟩) (by simp [hnil])

theorem groupLast_driver (k : ℕ) (g : List PosRow) :
    (groupLast k g).driver_number = k := rfl

/-! ## Facts about `lastSome` (pandas `GroupBy.last` per column) -/

theorem lastSome_concat (f : PosRow → Option β) (g : List PosRow) (x : PosRow) :
    lastSome f (g ++ [x]) = (f x).or (lastSome f g) := by
  cases hfx : f x with
  | none =>
    simp [lastSome, List.filterMap_append, List.filterMap_cons, hfx, Option.none_or]
  | some v =>
    simp [lastSome, List.filterMap_append, List.filterMap_cons, hfx,
      List.getLast?_concat, Option.or]

theorem lastSome_singleton (f : PosRow → Option β) (r : PosRow) :
    lastSome f [r] = f r := by
  cases h : f r <;> simp [lastSome, List.filterMap_cons, h]

theorem lastSome_pair {f : PosRow → Option β} {a b : PosRow}
    (hb : (f b).isSome) : lastSome f [a, b] = f b := by
  obtain ⟨v, hv⟩ := Option.isSome_iff_exists.mp hb
  cases h : f a <;> simp [lastSome, List.filterMap_cons, h, hv]

theorem lastSome_eq_of_getLast? {f : PosRow → Option β} {g : List PosRow} {x : PosRow}
    (hg : g.getLast? = some x) (hall : ∀ r ∈ g, (f r).isSome) :
    lastSome f g = f x := by
  rcases List.eq_nil_or_concat g with rfl | ⟨L, b, rfl⟩
  · simp at hg
  · rw [List.concat_eq_append] at hg hall ⊢
    rw [List.getLast?_concat] at hg
    obtain rfl : b = x := by injection hg
    rw [lastSome_concat]
    obtain ⟨v, hv⟩ := Option.isSome_iff_exists.mp (hall b (by simp))
    simp [hv, Option.or]

theorem getLast?_mem {l : List α} {x : α} (h : l.getLast? = some x) : x ∈ l := by
  rcases List.eq_nil_or_concat l with rfl | ⟨L, b, rfl⟩
  · simp at h
  · rw [List.concat_eq_append] at h ⊢
    rw [List.getLast?_concat] at h
    obtain rfl : b = x := by injection h
    simp

theorem lastSome_isSome {f : PosRow → Option β} {g : List PosRow}
    (hne : g ≠ []) (hall : ∀ r ∈ g, (f r).isSome) : (lastSome f g).isSome := by
  obtain ⟨x, hx⟩ := Option.isSome_iff_exists.mp (List.getLast?_isSome.mpr hne)
  rw [lastSome_eq_of_getLast? hx hall]
  exact hall x (getLast?_mem hx)

theorem groupLast_singleton {k : ℕ} {r : PosRow} (h : r.driver_number = k) :
    groupLast k [r] = r := by
  subst h
  simp [groupLast, lastSome_singleton]

/-! ## Facts about the reducer's output -/

theorem map_driver_groupByLast (rows : List PosRow) :
    (groupByLast rows).map (fun r => r.driver_number) = groupKeys rows := by
  rw [groupByLast, List.map_map]
  exact (List.map_congr_left fun k _ => rfl).trans (List.map_id _)

theorem position_isSome_of_mem_reduce {p : PosInput} {r : PosRow}
    (h : r ∈ reducePositions p) : r.position.isSome := by
  obtain ⟨k, hk, rfl⟩ := List.mem_map.mp h
  refine lastSome_isSome (groupRows_ne_nil hk) ?_
  intro x hx
  exact isSome_of_mem_orderEvents (mem_groupRows.mp hx).1

/-! ## Inversion facts about `finishing_order`'s branches -/

theorem list_by_session_ne_nil {d : List DriverRecord} (h : d ≠ []) :
    list_by_session d ≠ [] := by
  intro hnil
  rw [list_by_session, if_neg (by simp [List.isEmpty_iff, h])] at hnil
  have hlen : (sortLe drvLe d.dedup).length = d.dedup.length := length_sortLe _ _
  rw [hnil] at hlen
  exact h ((List.dedup_eq_nil d).mp (List.length_eq_zero.mp hlen.symm))

theorem finishing_order_rawEmpty {p : PosInput} (d : List DriverRecord)
    (hp : p.rows = []) : finishing_order p d = Except.ok FinOut.rawEmpty := by
  simp [finishing_order, hp]

theorem finishing_order_err {p : PosInput} (hp : p.rows ≠ []) :
    finishing_order p [] = Except.error "KeyError: driver_number" := by
  simp [finishing_order, list_by_session, List.isEmpty_iff, hp]

theorem finishing_order_eq_table {p : PosInput} {d : List DriverRecord}
    (hp : p.rows ≠ []) (hd : d ≠ []) :
    finishing_order p d = Except.ok (FinOut.table (assembleRows p d)) := by
  simp [finishing_order, List.isEmpty_iff, hp, list_by_session_ne_nil hd]

theorem finishing_order_table_inv {p : PosInput} {d : List DriverRecord}
    {rows : List ClassRow} (h : finishing_order p d = Except.ok (FinOut.table rows)) :
    rows = assembleRows p d ∧ p.rows ≠ [] ∧ d ≠ [] := by
  by_cases hp : p.rows = []
  · rw [finishing_order_rawEmpty d hp] at h
    simp at h
  · by_cases hd : d = []
    · subst hd
      rw [finishing_order_err hp] at h
      simp at h
    · rw [finishing_order_eq_table hp hd] at h
      simp at h
      exact ⟨h.symm, hp, hd⟩

/-! ## Facts about the left merge -/

theorem mergeBlock_p {r : PosRow} {drv : List DriverRecord} {m : MergedRow}
    (h : m ∈ mergeBlock r drv) : m.p = r := by
  rw [mergeBlock] at h
  rcases hfil : drv.filter (fun d => d.driver_number == r.driver_number) with _ | ⟨d, ds⟩ <;>
    rw [hfil] at h
  · simp at h
    rw [h]
  · obtain ⟨d', _, rfl⟩ := List.mem_map.mp h
    rfl

theorem mem_mergeLeft_p {ps : List PosRow} {drv : List DriverRecord} {m : MergedRow}
    (h : m ∈ mergeLeft ps drv) : m.p ∈ ps := by
  obtain ⟨r, hr, hb⟩ := List.mem_flatMap.mp h
  rw [mergeBlock_p hb]
  exact hr

theorem mergeBlock_unmatched {r : PosRow} {drv : List DriverRecord}
    (h : ∀ d ∈ drv, d.driver_number ≠ r.driver_number) :
    mergeBlock r drv = [{ p := r, full_name := none, team_name := none }] := by
  have hfil : drv.filter (fun d => d.driver_number == r.driver_number) = [] := by
    rw [List.filter_eq_nil_iff]
    intro d hd
    simp [h d hd]
  rw [mergeBlock, hfil]

theorem filter_key_length_le_one {drv : List DriverRecord}
    (hnd : (drv.map (fun d => d.driver_number)).Nodup) (k : ℕ) :
    (drv.filter (fun d => d.driver_number == k)).length ≤ 1 := by
  induction drv with
  | nil => simp
  | cons a l ih =>
    rw [List.map_cons, List.nodup_cons] at hnd
    rw [List.filter_cons]
    by_cases ha : (a.driver_number == k) = true
    · rw [if_pos ha]
      have hnil : l.filter (fun d => d.driver_number == k) = [] := by
        rw [List.filter_eq_nil_iff]
        intro d hd hdk
        refine hnd.1 ?_
        rw [beq_iff_eq] at ha hdk
        rw [ha, ← hdk]
        exact List.mem_map_of_mem _ hd
      simp [hnil]
    · rw [if_neg ha]
      exact ih hnd.2

theorem mergeBlock_length {r : PosRow} {drv : List DriverRecord}
    (hnd : (drv.map (fun d => d.driver_number)).Nodup) :
    (mergeBlock r drv).length = 1 := by
  rw [mergeBlock]
  rcases hfil : drv.filter (fun d => d.driver_number == r.driver_number) with _ | ⟨d, ds⟩
  · rw [hfil]
    rfl
  · have := filter_key_length_le_one hnd r.driver_number
    rw [hfil] at this
    have hds : ds = [] := by
      rw [List.length_cons] at this
      exact List.length_eq_zero.mp (Nat.le_zero.mp (Nat.le_of_succ_le_succ this))
    subst hds
    rw [hfil]
    rfl

theorem mergeLeft_length {ps : List PosRow} {drv : List DriverRecord}
    (hnd : (drv.map (fun d => d.driver_number)).Nodup) :
    (mergeLeft ps drv).length = ps.length := by
  induction ps with
  | nil => rfl
  | cons r ps ih =>
    rw [mergeLeft, List.flatMap_cons, List.length_append, ← mergeLeft, ih,
      mergeBlock_length hnd, List.length_cons, Nat.add_comm]

theorem posLe_refl (r : PosRow) : posLe r r = true := ole_refl _

theorem posLe_total (a b : PosRow) : posLe a b = true ∨ posLe b a = true :=
  ole_total _ _

theorem posLe_trans (a b c : PosRow) (hab : posLe a b = true)
    (hbc : posLe b c = true) : posLe a c = true :=
  ole_trans _ _ _ hab hbc

theorem pairwise_mergeLeft {ps : List PosRow} (drv : List DriverRecord)
    (h : ps.Pairwise fun a b => posLe a b = true) :
    (mergeLeft ps drv).Pairwise (fun m1 m2 => posLe m1.p m2.p = true) := by
  induction ps with
  | nil => exact List.Pairwise.nil
  | cons r ps ih =>
    rcases List.pairwise_cons.mp h with ⟨hr, h'⟩
    rw [mergeLeft, List.flatMap_cons, ← mergeLeft]
    refine List.pairwise_append.mpr ⟨?_, ih h', ?_⟩
    · refine List.pairwise_of_forall_mem_list ?_
      intro m1 hm1 m2 hm2
      rw [mergeBlock_p hm1, mergeBlock_p hm2]
      exact posLe_refl r
    · intro m1 hm1 m2 hm2
      rw [mergeBlock_p hm1]
      exact hr m2.p (mem_mergeLeft_p hm2)

/-! ## Uniqueness of the reduced rows per driver -/

theorem groupRows_self_of_nodup {l : List PosRow}
    (hnd : (l.map fun r => r.driver_number).Nodup) {r : PosRow} (hr : r ∈ l) :
    groupRows r.driver_number l = [r] := by
  induction l with
  | nil => simp at hr
  | cons a t ih =>
    rw [List.map_cons, List.nodup_cons] at hnd
    rcases List.mem_cons.mp hr with rfl | hrt
    · rw [groupRows, List.filter_cons, if_pos (by simp)]
      have hnil : t.filter (fun x => x.driver_number == r.driver_number) = [] := by
        rw [List.filter_eq_nil_iff]
        intro x hx hxk
        refine hnd.1 ?_
        rw [beq_iff_eq] at hxk
        rw [← hxk]
        exact List.mem_map_of_mem _ hx
      rw [hnil]
    · rw [groupRows, List.filter_cons, if_neg]
      · exact ih hnd.2 hrt
      · intro ha
        rw [beq_iff_eq] at ha
        refine hnd.1 ?_
        rw [ha]
        exact List.mem_map_of_mem _ hrt

/-! ## The gap rule of the code coincides with the specification's wording -/

theorem format_gap_eq_spec (s : PosSchema) (m : MergedRow) :
    format_gap (chooseGapCol s) m = specGapRule s m := by
  rcases s with ⟨d, l, g, i⟩
  by_cases hp : (m.p.position == some 1) = true <;>
    cases g <;> cases i <;>
      simp [format_gap, specGapRule, chooseGapCol, gapField, hp]

/-! ## Claim theorems -/

/-- C2.  Every output row of the Classification Assembler carries
`gap_to_leader` computed exactly by the specification's Gap Formatting Rule:
`"Leader"` when the row's position is 1; otherwise `"N/A"` when the session
has neither a `gap` nor an `interval` column, or when the designated column
(`gap` preferred over `interval` when both exist) is null for the row;
otherwise the designated column's raw value unmodified — and the other four
columns are the merged row's fields passed through. -/
theorem gap_formatting_follows_spec (p : PosInput) (drvRaw : List DriverRecord)
    (rows : List ClassRow)
    (h : finishing_order p drvRaw = Except.ok (FinOut.table rows)) :
    rows = (mergeLeft (orderedByPosition p) (list_by_session drvRaw)).map fun m =>
      { position := m.p.position
        driver_number := m.p.driver_number
        full_name := m.full_name
        team_name := m.team_name
        gap_to_leader := specGapRule p.schema m } := by
  obtain ⟨hrows, -, -⟩ := finishing_order_table_inv h
  rw [hrows, assembleRows]
  refine List.map_congr_left fun m _ => ?_
  rw [projectRow, format_gap_eq_spec]

/-- Witness for C2 at a concrete session: a lap/interval session with one
event for driver 2 and an unmatched roster; the single output row follows
the spec's rule (raw interval passed through). -/
theorem gap_formatting_follows_spec_inst :
    [({ position := some 2, driver_number := 2, full_name := none,
        team_name := none, gap_to_leader := GapOut.raw "+1.2s" } : ClassRow)] =
      (mergeLeft (orderedByPosition ⟨sLI, [⟨2, some 2, none, some 5, none, some "+1.2s"⟩]⟩)
          (list_by_session [⟨9, "X", "Y"⟩])).map fun m =>
        { position := m.p.position
          driver_number := m.p.driver_number
          full_name := m.full_name
          team_name := m.team_name
          gap_to_leader := specGapRule sLI m } :=
  gap_formatting_follows_spec ⟨sLI, [⟨2, some 2, none, some 5, none, some "+1.2s"⟩]⟩
    [⟨9, "X", "Y"⟩] _ rfl

/-- C5, counterexample to the claim as stated: a session whose feed only
ever reports driver 1 at rank 2 yields a non-empty output containing no row
with `position == 1` at all, so a non-empty output need not contain exactly
one rank-1 row. -/
theorem nonempty_output_without_leader :
    finishing_order ⟨sDG, [rowSecond]⟩ [drvA] =
      Except.ok (FinOut.table
        [{ position := some 2, driver_number := 1, full_name := some "A",
           team_name := some "TeamA", gap_to_leader := GapOut.na }]) ∧
    ∀ cr ∈ [({ position := some 2, driver_number := 1, full_name := some "A",
               team_name := some "TeamA", gap_to_leader := GapOut.na } : ClassRow)],
      cr.position ≠ some 1 :=
  ⟨rfl, by decide⟩

/-- C5, amended.  What the code does guarantee: every output row whose
`position` equals 1 carries the literal `"Leader"`, never a numeric or empty
gap value; the output may however contain zero (or several) such rows, since
the ranks are taken from the feed as-is. -/
theorem position_one_row_is_leader (p : PosInput) (drvRaw : List DriverRecord)
    (rows : List ClassRow)
    (h : finishing_order p drvRaw = Except.ok (FinOut.table rows)) :
    ∀ cr ∈ rows, cr.position = some 1 → cr.gap_to_leader = GapOut.leader := by
  obtain ⟨hrows, -, -⟩ := finishing_order_table_inv h
  subst hrows
  intro cr hcr hpos
  obtain ⟨m, -, rfl⟩ := List.mem_map.mp hcr
  have : (m.p.position == some 1) = true := by
    rw [beq_iff_eq]
    exact hpos
  simp [projectRow, format_gap, this]

/-- Witness for C5 (amended) at a concrete session with a rank-1 row. -/
theorem position_one_row_is_leader_inst :
    ({ position := some 1, driver_number := 1, full_name := some "A",
       team_name := some "TeamA", gap_to_leader := GapOut.leader } : ClassRow).gap_to_leader
      = GapOut.leader :=
  position_one_row_is_leader ⟨sDG, [rowLead]⟩ [drvA] _ rfl
    { position := some 1, driver_number := 1, full_name := some "A",
      team_name := some "TeamA", gap_to_leader := GapOut.leader }
    (by decide) rfl

/-- C10.  The two source files duplicate `finishing_order` verbatim: the
embedding of `f1.py`'s pipeline and the independent inlined transcription of
`f1_comments.py`'s agree on every input, including which inputs raise. -/
theorem implementations_agree :
    ∀ (p : PosInput) (drvRaw : List DriverRecord),
      finishing_order p drvRaw = finishing_order_c p drvRaw :=
  fun _ _ => rfl

/-- C8, counterexample to the claim as stated: with an empty positions
fetch, `finishing_order` returns the raw empty frame (the early
`return pos`), which carries no columns at all, so not every output has the
five projected columns. -/
theorem empty_return_lacks_columns :
    finishing_order ⟨sBare, []⟩ [] = Except.ok FinOut.rawEmpty ∧
    FinOut.columns FinOut.rawEmpty ≠
      ["position", "driver_number", "full_name", "team_name", "gap_to_leader"] :=
  ⟨rfl, by decide⟩

/-- C8, amended.  Every assembled (non-early-return) output has exactly the
five projected columns and its rows are ordered by `position` ascending
(nulls-last comparison, though `position` is never null there); the
empty-input early return instead reproduces the raw empty frame, which has
no columns and no rows. -/
theorem table_columns_and_order (p : PosInput) (drvRaw : List DriverRecord)
    (rows : List ClassRow)
    (h : finishing_order p drvRaw = Except.ok (FinOut.table rows)) :
    (FinOut.table rows).columns =
      ["position", "driver_number", "full_name", "team_name", "gap_to_leader"] ∧
    rows.Pairwise (fun a b => ole a.position b.position = true) := by
  refine ⟨rfl, ?_⟩
  obtain ⟨hrows, -, -⟩ := finishing_order_table_inv h
  subst hrows
  have hsorted : List.Pairwise (fun a b => posLe a b = true) (orderedByPosition p) :=
    pairwise_sortLe posLe_total posLe_trans _
  have hml := pairwise_mergeLeft (list_by_session drvRaw) hsorted
  rw [assembleRows, List.pairwise_map]
  exact hml

/-- Witness for C8 (amended) at a concrete two-driver session. -/
theorem table_columns_and_order_inst :
    (FinOut.table
        [{ position := some 1, driver_number := 1, full_name := some "A",
           team_name := some "TeamA", gap_to_leader := GapOut.leader },
         { position := some 3, driver_number := 2, full_name := none,
           team_name := none, gap_to_leader := GapOut.na }]).columns =
      ["position", "driver_number", "full_name", "team_name", "gap_to_leader"] ∧
    List.Pairwise (fun a b => ole a.position b.position = true)
      [({ position := some 1, driver_number := 1, full_name := some "A",
          team_name := some "TeamA", gap_to_leader := GapOut.leader } : ClassRow),
       { position := some 3, driver_number := 2, full_name := none,
         team_name := none, gap_to_leader := GapOut.na }] :=
  table_columns_and_order ⟨sDG, [rowLead, ⟨2, some 3, some 1, none, none, none⟩]⟩
    [drvA] _ rfl

/-- C1, counterexample to the claim as stated: a positions input that is
non-empty after filtering, joined against an entirely empty roster fetch,
does not degrade to null identity fields — the merge raises, because the
empty drivers frame has no `driver_number` column. -/
theorem empty_roster_raises :
    filteredRows ⟨sDG, [rowLead]⟩ ≠ [] ∧
    finishing_order ⟨sDG, [rowLead]⟩ [] = Except.error "KeyError: driver_number" :=
  ⟨by decide, rfl⟩

/-- C1, amended.  For every positions input non-empty after null filtering
and every roster fetch that returned at least one record, `finishing_order`
completes without raising, and every reduced driver with no roster
counterpart still gets an output row, with null `full_name` and `team_name`;
with an entirely empty roster fetch the merge raises `KeyError` instead. -/
theorem unmatched_roster_row_emitted (p : PosInput) (drvRaw : List DriverRecord)
    (hfil : filteredRows p ≠ []) (hdrv : drvRaw ≠ []) :
    ∃ rows, finishing_order p drvRaw = Except.ok (FinOut.table rows) ∧
      ∀ r ∈ reducePositions p,
        (∀ d ∈ list_by_session drvRaw, d.driver_number ≠ r.driver_number) →
        ∃ cr ∈ rows, cr.driver_number = r.driver_number ∧
          cr.full_name = none ∧ cr.team_name = none := by
  have hp : p.rows ≠ [] := by
    intro h
    exact hfil (by simp [filteredRows, h])
  refine ⟨assembleRows p drvRaw, finishing_order_eq_table hp hdrv, ?_⟩
  intro r hr hnomatch
  have hr' : r ∈ orderedByPosition p := mem_sortLe.mpr hr
  have hm : ({ p := r, full_name := none, team_name := none } : MergedRow) ∈
      mergeLeft (orderedByPosition p) (list_by_session drvRaw) := by
    rw [mergeLeft]
    refine List.mem_flatMap.mpr ⟨r, hr', ?_⟩
    rw [mergeBlock_unmatched hnomatch]
    simp
  exact ⟨projectRow (chooseGapCol p.schema) { p := r, full_name := none, team_name := none },
    List.mem_map_of_mem _ hm, rfl, rfl, rfl⟩

/-- Witness for C1 (amended): driver 1 classified, roster only knows
driver 9 — the row is emitted with null identity fields. -/
theorem unmatched_roster_row_emitted_inst :
    ∃ rows, finishing_order ⟨sDG, [rowLead]⟩ [⟨9, "X", "Y"⟩] =
        Except.ok (FinOut.table rows) ∧
      ∀ r ∈ reducePositions ⟨sDG, [rowLead]⟩,
        (∀ d ∈ list_by_session [⟨9, "X", "Y"⟩], d.driver_number ≠ r.driver_number) →
        ∃ cr ∈ rows, cr.driver_number = r.driver_number ∧
          cr.full_name = none ∧ cr.team_name = none :=
  unmatched_roster_row_emitted ⟨sDG, [rowLead]⟩ [⟨9, "X", "Y"⟩] (by decide) (by decide)

/-- With nothing surviving the null filter, the assembled table is empty. -/
theorem assembleRows_of_filtered_nil {p : PosInput} (drvRaw : List DriverRecord)
    (hfil : filteredRows p = []) : assembleRows p drvRaw = [] := by
  have hoe : orderEvents p = [] := by
    have := perm_orderEvents p
    rw [hfil] at this
    exact this.eq_nil
  rw [assembleRows, orderedByPosition, reducePositions, hoe]
  rfl

/-- C7, counterexample to the claim as stated: a feed whose every event has
a null position, combined with an empty roster fetch, reaches the merge with
an empty (column-free) drivers frame and raises instead of returning an
empty result. -/
theorem allnull_with_empty_roster_raises :
    (⟨sDG, [rowNull]⟩ : PosInput).rows ≠ [] ∧
    filteredRows ⟨sDG, [rowNull]⟩ = [] ∧
    finishing_order ⟨sDG, [rowNull]⟩ [] = Except.error "KeyError: driver_number" :=
  ⟨by decide, by decide, rfl⟩

/-- C7, amended.  An empty raw positions fetch yields the empty early return
for any roster; a feed whose events are all filtered out yields an empty
(zero-row) table provided the roster fetch returned at least one record: in
these cases `finishing_order` returns an empty result and does not raise.
(With all events filtered out and an empty roster fetch it raises, per the
counterexample.) -/
theorem no_data_empty_result (p : PosInput) (drvRaw : List DriverRecord)
    (hfil : filteredRows p = []) (hsafe : p.rows = [] ∨ drvRaw ≠ []) :
    ∃ out, finishing_order p drvRaw = Except.ok out ∧ out.numRows = 0 := by
  by_cases hp : p.rows = []
  · exact ⟨FinOut.rawEmpty, finishing_order_rawEmpty drvRaw hp, rfl⟩
  · have hdrv : drvRaw ≠ [] := by
      rcases hsafe with h | h
      · exact absurd h hp
      · exact h
    refine ⟨FinOut.table (assembleRows p drvRaw), finishing_order_eq_table hp hdrv, ?_⟩
    rw [FinOut.numRows, assembleRows_of_filtered_nil drvRaw hfil]
    rfl

/-- Witness for C7 (amended): an all-null feed with a non-empty roster gives
an empty table. -/
theorem no_data_empty_result_inst :
    ∃ out, finishing_order ⟨sDG, [rowNull]⟩ [drvA] = Except.ok out ∧
      out.numRows = 0 :=
  no_data_empty_result ⟨sDG, [rowNull]⟩ [drvA] (by decide) (Or.inr (by decide))

/-- C6, counterexample to the claim as stated: one distinct driver survives
filtering, but with an entirely empty roster input `finishing_order` raises
rather than producing a one-row output, so the row-count equality does not
hold for every roster input. -/
theorem rowcount_claim_fails_empty_roster :
    ((filteredRows ⟨sLI, [⟨2, some 2, none, some 5, none, some "+1.2s"⟩]⟩).map
        fun r => r.driver_number).dedup.length = 1 ∧
    finishing_order ⟨sLI, [⟨2, some 2, none, some 5, none, some "+1.2s"⟩]⟩ [] =
      Except.error "KeyError: driver_number" :=
  ⟨by decide, rfl⟩

/-- C6, amended.  Whenever the roster fetch returned at least one record and
its processed form has pairwise-distinct `driver_number` keys (the claim's
"duplicates collapsed"), every result `finishing_order` returns has exactly
one row per distinct `driver_number` among the events surviving the null
filter, regardless of which drivers the roster actually knows. -/
theorem output_rowcount_eq_distinct_drivers (p : PosInput) (drvRaw : List DriverRecord)
    (hdrv : drvRaw ≠ [])
    (hnd : ((list_by_session drvRaw).map fun d => d.driver_number).Nodup)
    (out : FinOut) (h : finishing_order p drvRaw = Except.ok out) :
    out.numRows = ((filteredRows p).map fun r => r.driver_number).dedup.length := by
  by_cases hp : p.rows = []
  · rw [finishing_order_rawEmpty drvRaw hp] at h
    obtain rfl : FinOut.rawEmpty = out := by injection h
    have hfil : filteredRows p = [] := by simp [filteredRows, hp]
    rw [hfil]
    rfl
  · rw [finishing_order_eq_table hp hdrv] at h
    obtain rfl : FinOut.table (assembleRows p drvRaw) = out := by injection h
    rw [FinOut.numRows, assembleRows, List.length_map, mergeLeft_length hnd,
      orderedByPosition, length_sortLe, reducePositions, groupByLast,
      List.length_map, groupKeys, length_sortLe]
    exact List.Perm.length_eq
      (List.Perm.dedup (List.Perm.map (fun r => r.driver_number) (perm_orderEvents p)))

/-- Witness for C6 (amended): two events for one driver reduce to a single
output row. -/
theorem output_rowcount_eq_distinct_drivers_inst :
    (FinOut.table
        [{ position := some 1, driver_number := 1, full_name := some "A",
           team_name := some "TeamA", gap_to_leader := GapOut.leader }]).numRows =
      ((filteredRows ⟨sDG, [rowLead, rowEarly]⟩).map
        fun r => r.driver_number).dedup.length :=
  output_rowcount_eq_distinct_drivers ⟨sDG, [rowLead, rowEarly]⟩ [drvA]
    (by decide) (by decide) _ rfl

theorem filterMap_eq_map_of_some {f : α → Option β} {g : α → β} {l : List α}
    (h : ∀ a ∈ l, f a = some (g a)) : l.filterMap f = l.map g := by
  induction l with
  | nil => rfl
  | cons a t ih =>
    rw [List.filterMap_cons, h a (by simp), List.map_cons,
      ih fun x hx => h x (by simp [hx])]

/-- C3, counterexample to the claim as stated: driver 7's chronologically
later event has a null gap, and pandas `GroupBy.last` takes the last
non-null entry per column, so the reduced row mixes the later event's
position and date with the earlier event's gap — it does not keep the last
event as one unit. -/
theorem reducer_not_whole_event :
    reducePositions ⟨sDG, [rowA7, rowB7]⟩ =
      [⟨7, some 1, some 2, none, some "+1.0", none⟩] ∧
    lastWholeEvent ⟨sDG, [rowA7, rowB7]⟩ = [rowB7] ∧
    reducePositions ⟨sDG, [rowA7, rowB7]⟩ ≠ lastWholeEvent ⟨sDG, [rowA7, rowB7]⟩ :=
  ⟨rfl, rfl, by decide⟩

/-- C3, amended.  The reducer filters null positions and orders by `date`
(else `lap_number`, else arrival order) as claimed, but per driver it keeps,
for each column independently, the last non-null value within the ordered
group (`GroupBy.last` skips nulls column-wise).  This coincides with keeping
the last event as one unit whenever every optional field of every event is
reported. -/
theorem reducer_lastWholeEvent_of_allSome (p : PosInput)
    (hall : ∀ r ∈ p.rows,
      r.date.isSome ∧ r.lap_number.isSome ∧ r.gap.isSome ∧ r.interval.isSome) :
    reducePositions p = lastWholeEvent p := by
  rw [reducePositions, groupByLast, lastWholeEvent]
  refine (filterMap_eq_map_of_some ?_).symm
  intro k hk
  have hne : groupRows k (orderEvents p) ≠ [] := groupRows_ne_nil hk
  obtain ⟨x, hx⟩ :=
    Option.isSome_iff_exists.mp (List.getLast?_isSome.mpr hne)
  have hxg : x ∈ groupRows k (orderEvents p) := getLast?_mem hx
  have hmemrows : ∀ r ∈ groupRows k (orderEvents p), r ∈ p.rows := by
    intro r hr
    exact (mem_filteredRows.mp (mem_orderEvents.mp (mem_groupRows.mp hr).1)).1
  have hall' : ∀ (γ : Type) (f : PosRow → Option γ),
      (∀ r ∈ groupRows k (orderEvents p), (f r).isSome) →
      lastSome f (groupRows k (orderEvents p)) = f x :=
    fun _ _ hf => lastSome_eq_of_getLast? hx hf
  have hpos := hall' ℤ (fun r => r.position)
    fun r hr => isSome_of_mem_orderEvents (mem_groupRows.mp hr).1
  have hdt := hall' ℕ (fun r => r.date) fun r hr => (hall r (hmemrows r hr)).1
  have hlap := hall' ℕ (fun r => r.lap_number) fun r hr => (hall r (hmemrows r hr)).2.1
  have hgap := hall' String (fun r => r.gap) fun r hr => (hall r (hmemrows r hr)).2.2.1
  have hint := hall' String (fun r => r.interval)
    fun r hr => (hall r (hmemrows r hr)).2.2.2
  have hdrv : x.driver_number = k := (mem_groupRows.mp hxg).2
  rw [hx, groupLast, hpos, hdt, hlap, hgap, hint, ← hdrv]

/-- Witness for C3 (amended) on a session whose events report every field:
the reducer keeps driver 1's later event whole. -/
theorem reducer_lastWholeEvent_of_allSome_inst :
    reducePositions ⟨sDG, [rowF1, rowF2]⟩ = lastWholeEvent ⟨sDG, [rowF1, rowF2]⟩ :=
  reducer_lastWholeEvent_of_allSome ⟨sDG, [rowF1, rowF2]⟩ (by decide)

/-- C4, counterexample to the claim as stated: driver 5's two events share
the same `date`; the later-arriving event B has a null gap, and per-column
`GroupBy.last` back-fills the gap from the earlier event, so the kept row is
not B — the later event is not selected as one unit even though the
two-element sort does preserve arrival order. -/
theorem tie_not_whole_event :
    reducePositions ⟨sDG, [rowA5, rowB5]⟩ =
      [⟨5, some 1, some 1, none, some "+1.0", none⟩] ∧
    reducePositions ⟨sDG, [rowA5, rowB5]⟩ ≠ [rowB5] :=
  ⟨rfl, by decide⟩

/-- C4, amended.  For a two-event arrival [A, B] of one driver with
identical `date` values in a session ordered by `date`, the later event B is
kept whole provided each of B's fields is non-null (per-column `last`
back-fills any null field of B from A); the two-element sort preserves
arrival order, as numpy's introsort degenerates to a stable insertion sort
below 17 elements — for longer runs of equal keys the default
`kind='quicksort'` leaves the tie order, and hence which event "wins",
unspecified. -/
theorem tie_keeps_later_event (s : PosSchema) (A B : PosRow)
    (hd : s.hasDate = true)
    (hdrv : A.driver_number = B.driver_number)
    (hdate : A.date = B.date)
    (hApos : A.position.isSome) (hBpos : B.position.isSome)
    (hBd : B.date.isSome) (hBl : B.lap_number.isSome)
    (hBg : B.gap.isSome) (hBi : B.interval.isSome) :
    reducePositions ⟨s, [A, B]⟩ = [B] := by
  have hfil : filteredRows ⟨s, [A, B]⟩ = [A, B] := by
    simp [filteredRows, List.filter_cons, hApos, hBpos]
  have hord : orderEvents ⟨s, [A, B]⟩ = [A, B] := by
    rw [orderEvents, hfil]
    have hAB : dateLe A B = true := by
      rw [dateLe, hdate]
      exact ole_refl _
    simp only [hd, if_true]
    rw [sortLe, sortLe, sortLe, insertLe, insertLe, if_pos hAB]
  have hkeys : groupKeys [A, B] = [B.driver_number] := by
    rw [groupKeys]
    have hmap : ([A, B].map fun r => r.driver_number) =
        [B.driver_number, B.driver_number] := by
      simp [hdrv]
    rw [hmap]
    have hded : ([B.driver_number, B.driver_number] : List ℕ).dedup =
        [B.driver_number] := by
      simp [List.dedup_cons_of_mem, List.mem_dedup]
    rw [hded, sortLe, sortLe, insertLe]
  have hrows : groupRows B.driver_number [A, B] = [A, B] := by
    simp [groupRows, List.filter_cons, hdrv]
  have hgl : groupLast B.driver_number [A, B] = B := by
    have hlp := lastSome_pair (a := A) hBpos
    have hld := lastSome_pair (a := A) hBd
    have hll := lastSome_pair (a := A) hBl
    have hlg := lastSome_pair (a := A) hBg
    have hli := lastSome_pair (a := A) hBi
    rw [groupLast, hlp, hld, hll, hlg, hli]
  rw [reducePositions, groupByLast, hord, hkeys, List.map_cons, List.map_nil,
    hrows, hgl]

/-- Witness for C4 (amended): a concrete same-date pair with a fully
reported later event; the later event is kept. -/
theorem tie_keeps_later_event_inst :
    reducePositions ⟨sDG, [rowG5a, rowG5b]⟩ = [rowG5b] :=
  tie_keeps_later_event sDG rowG5a rowG5b rfl rfl rfl
    (by decide) (by decide) (by decide) (by decide) (by decide) (by decide)

/-- C9.  The Position Reducer is idempotent: feeding its own output (under
the same session schema) back through null-filter, chronological sort and
group-wise `last` reproduces that output exactly.  Every reduced row has a
non-null position, the rows carry pairwise-distinct driver numbers, and
`groupby` re-sorts the keys it already emitted sorted, so each singleton
group reproduces its row. -/
theorem reduce_idempotent (p : PosInput) :
    reducePositions ⟨p.schema, reducePositions p⟩ = reducePositions p := by
  have hfq : filteredRows ⟨p.schema, reducePositions p⟩ = reducePositions p :=
    List.filter_eq_self.mpr fun r hr => position_isSome_of_mem_reduce hr
  have hperm : List.Perm (orderEvents ⟨p.schema, reducePositions p⟩) (reducePositions p) := by
    have := perm_orderEvents ⟨p.schema, reducePositions p⟩
    rw [hfq] at this
    exact this
  have hndR : ((reducePositions p).map fun r => r.driver_number).Nodup := by
    rw [reducePositions, map_driver_groupByLast]
    exact nodup_groupKeys _
  have hndq :
      ((orderEvents ⟨p.schema, reducePositions p⟩).map fun r => r.driver_number).Nodup :=
    (List.Perm.nodup_iff (List.Perm.map _ hperm)).mpr hndR
  have hkeys : groupKeys (orderEvents ⟨p.schema, reducePositions p⟩) =
      groupKeys (orderEvents p) := by
    haveI : IsAntisymm ℕ (fun a b => natLe a b = true) :=
      ⟨fun a b h1 h2 =>
        le_antisymm (by simpa [natLe] using h1) (by simpa [natLe] using h2)⟩
    refine List.eq_of_perm_of_sorted ?_
      (pairwise_sortLe natLe_total natLe_trans _)
      (pairwise_sortLe natLe_total natLe_trans _)
    rw [groupKeys, groupKeys]
    refine (perm_sortLe _ _).trans (List.Perm.trans ?_ (perm_sortLe _ _).symm)
    have h1 : ((orderEvents ⟨p.schema, reducePositions p⟩).map
        fun r => r.driver_number).dedup =
        (orderEvents ⟨p.schema, reducePositions p⟩).map fun r => r.driver_number :=
      List.Nodup.dedup hndq
    rw [h1]
    refine (List.Perm.map _ hperm).trans ?_
    rw [reducePositions, map_driver_groupByLast, groupKeys]
    exact (perm_sortLe _ _).trans (List.Perm.refl _)
  rw [reducePositions, groupByLast, hkeys]
  conv_rhs => rw [reducePositions, groupByLast]
  refine List.map_congr_left ?_
  intro k hk
  have hrR : groupLast k (groupRows k (orderEvents p)) ∈ reducePositions p :=
    List.mem_map_of_mem _ hk
  have hrq : groupLast k (groupRows k (orderEvents p)) ∈
      orderEvents ⟨p.schema, reducePositions p⟩ :=
    hperm.mem_iff.mpr hrR
  have hsingle : groupRows k (orderEvents ⟨p.schema, reducePositions p⟩) =
      [groupLast k (groupRows k (orderEvents p))] :=
    groupRows_self_of_nodup hndq hrq
  rw [hsingle]
  exact groupLast_singleton rfl

end OpenF1
